import Mathlib

/-!
Verification development for the nimbus controller core.

The lineage ledger (`scheduler/logical_data_lineage.cc`) is embedded with an
explicit node-identity model: the C++ `Chain` is a `std::list<LdlEntry>` and
the `Index` is a `std::list<Chain::iterator>`; here a chain is a list of
`(node id, entry)` pairs with a fresh-id counter, and an index entry is a
`ChainRef`: `some nid` is an iterator to the node with identity `nid`, while
`none` stands for the list's `end()` sentinel (which `it.base()` yields when a
reverse scan stops at `rbegin()`).  Every operation returns `Option`: `none`
models an assertion failure or undefined behaviour (dereferencing the `end()`
sentinel or a dangling iterator); the C++ member functions otherwise always
return `true`.
-/

namespace Nimbus

/-- One lineage record: `(job_id, version, depth, sterile)` as in `LdlEntry`. -/
structure LdlEntry where
  job_id : Nat
  version : Nat
  job_depth : Nat
  sterile : Bool
deriving DecidableEq, Repr

/-- A chain node: list-node identity paired with the stored entry. -/
abbrev ChainNode := Nat × LdlEntry

/-- An iterator into the chain: `some nid` points at node `nid`; `none` is the
`end()` sentinel. -/
abbrev ChainRef := Option Nat

/-- State of `LogicalDataLineage`: the chain, the parent index (iterators into
the chain), and a counter supplying fresh node identities. -/
structure Lineage where
  chain : List ChainNode
  parents_index : List ChainRef
  fresh : Nat
deriving DecidableEq, Repr

/-- Dereference an iterator: find the node with the given identity.
Dereferencing the `end()` sentinel or a dangling iterator gives `none`. -/
def lookupNode (chain : List ChainNode) : ChainRef → Option LdlEntry
  | none => none
  | some nid => (chain.find? (fun c => c.1 == nid)).map (fun c => c.2)

/-- `LogicalDataLineage::LastVersionInChain`: reads `chain_.rbegin()->version()`.
The dereference of `rbegin()` on an empty chain is undefined behaviour, hence
the `Option` result. -/
def LastVersionInChain (st : Lineage) : Option Nat :=
  (st.chain.getLast?).map (fun c => c.2.version)

/-- `LogicalDataLineage::AppendLdlEntry`: asserts
`LastVersionInChain() < version`, pushes the new entry at the tail, and when
the entry is not sterile pushes `--(chain_.end())` (an iterator to the new
node) onto the parent index. -/
def AppendLdlEntry (job_id version job_depth : Nat) (sterile : Bool)
    (st : Lineage) : Option Lineage :=
  match LastVersionInChain st with
  | none => none
  | some lv =>
    if lv < version then
      some { chain := st.chain ++ [(st.fresh, ⟨job_id, version, job_depth, sterile⟩)],
             parents_index :=
               if sterile then st.parents_index
               else st.parents_index ++ [some st.fresh],
             fresh := st.fresh + 1 }
    else none

/-- The maximal suffix of the chain whose versions all exceed `v`: the entries
skipped by the reverse scan in `InsertParentLdlEntry`. -/
def tailGt (v : Nat) (l : List ChainNode) : List ChainNode :=
  ((l.reverse).takeWhile (fun c => decide (v < c.2.version))).reverse

/-- The complementary front part of the chain: everything up to and including
the first entry (scanning from the tail) whose version is `≤ v`. -/
def headLe (v : Nat) (l : List ChainNode) : List ChainNode :=
  ((l.reverse).dropWhile (fun c => decide (v < c.2.version))).reverse

/-- The reverse scan of the parent index in `InsertParentLdlEntry`, acting on
the reversed index: collect the scanned entries whose dereferenced version
exceeds `v`, and return them together with the (reversed) remainder starting
at the stop position.  A dereference failure is undefined behaviour. -/
def indexSplitRev (chain : List ChainNode) (v : Nat) :
    List ChainRef → Option (List ChainRef × List ChainRef)
  | [] => some ([], [])
  | r :: rs =>
    match lookupNode chain r with
    | none => none
    | some e =>
      if e.version ≤ v then some ([], r :: rs)
      else
        match indexSplitRev chain v rs with
        | none => none
        | some (gt, rest) => some (r :: gt, rest)

/-- `LogicalDataLineage::InsertParentLdlEntry`: asserts `!sterile`; scans the
chain from the tail for the first entry with version `≤ version` and inserts
the new entry after it (`chain_.insert(it.base(), …)`); scans the parent index
from the tail likewise and inserts **`it.base()`** there — the iterator to the
chain node *after* the spliced entry, or the `end()` sentinel when the splice
was at the tail.  Finally the in-function check loop dereferences every index
entry and asserts it is non-sterile. -/
def InsertParentLdlEntry (job_id version job_depth : Nat) (sterile : Bool)
    (st : Lineage) : Option Lineage :=
  if sterile then none
  else
    let newChain :=
      headLe version st.chain ++
        (st.fresh, ⟨job_id, version, job_depth, sterile⟩) :: tailGt version st.chain
    let ref : ChainRef := ((tailGt version st.chain).head?).map (fun c => c.1)
    match indexSplitRev newChain version st.parents_index.reverse with
    | none => none
    | some (gt, rest) =>
      let newIndex := rest.reverse ++ ref :: gt.reverse
      if newIndex.all (fun r =>
          match lookupNode newChain r with
          | some e => !e.sterile
          | none => false) then
        some { chain := newChain, parents_index := newIndex, fresh := st.fresh + 1 }
      else none

/-- The reverse scan of the parent index in `CleanChain`, acting on the
reversed index: dereference each entry, remove its writer from the working
set, and stop when the working set empties.  Returns the stop iterator
(`*iit`) and the scanned entries in scan order; exhausting the index with a
non-empty working set is the assertion failure `assert(temp.size() == 0)`. -/
def cleanScan (chain : List ChainNode) :
    List Nat → List ChainRef → Option (ChainRef × List ChainRef)
  | _, [] => none
  | temp, r :: rs =>
    match lookupNode chain r with
    | none => none
    | some e =>
      let temp' := temp.filter (fun x => !(x == e.job_id))
      if temp'.isEmpty then some (r, [r])
      else
        match cleanScan chain temp' rs with
        | none => none
        | some (stop, acc) => some (stop, r :: acc)

/-- `LogicalDataLineage::CleanChain`: with an empty live set, clear both the
chain and the parent index; otherwise scan the index from the tail until every
live parent has been seen, erase the index entries strictly before the stop
position (`parents_index_.erase(begin, --(iit.base()))`) and the chain nodes
strictly before the stop entry's target (`chain_.erase(begin, *iit)`). -/
def CleanChain (live : List Nat) (st : Lineage) : Option Lineage :=
  if live.isEmpty then
    some { chain := [], parents_index := [], fresh := st.fresh }
  else
    match cleanScan st.chain live st.parents_index.reverse with
    | none => none
    | some (stop, acc) =>
      let newChain :=
        match stop with
        | some nid => st.chain.dropWhile (fun c => !(c.1 == nid))
        | none => []
      some { chain := newChain, parents_index := acc.reverse, fresh := st.fresh }

/-!
The template manager (`TemplateManager` in the source) guards every
worker-driven template operation by the registry state and forwards the valid
ones to the targeted `TemplateEntry`.  The dispatch logic below is translated
from the source; the `TemplateEntry` internals are not part of the sources and
are modelled from the spec where noted.
-/

/-- The arguments recorded by `TemplateManager::AddComputeJobToTemplate` for
one compute-job descriptor of a template being detected. -/
structure TemplateComputeJob where
  job_name : String
  job_id : Nat
  read_set : List Nat
  write_set : List Nat
  before_set : List Nat
  after_set : List Nat
  parent_job_id : Nat
  future_job_id : Nat
  sterile : Bool
deriving DecidableEq, Repr

/-- Modelled from the spec: the `TemplateEntry` class is not among the source
files (only its callers in `TemplateManager` are).  Per the spec a template
entry accumulates job descriptors while in the detecting state and carries a
finalized flag; finalizing freezes the skeleton. -/
structure TemplateEntry where
  finalized : Bool
  compute_jobs : List TemplateComputeJob
deriving DecidableEq, Repr

/-- Modelled from the spec: `TemplateEntry::CleanPartiallyFilledTemplate`
(missing from the sources) discards the partially accumulated descriptors so
detection can restart. -/
def CleanPartiallyFilledTemplate (e : TemplateEntry) : Option TemplateEntry :=
  some { e with compute_jobs := [] }

/-- Modelled from the spec: `TemplateEntry::Finalize` (missing from the
sources) freezes the skeleton; once finalized a template entry is immutable. -/
def TemplateEntryFinalize (e : TemplateEntry) : Bool × TemplateEntry :=
  if e.finalized then (false, e) else (true, { e with finalized := true })

/-- Record of one complex job created in the job manager by a successful
`TemplateEntry::Instantiate` call. -/
structure ComplexJobRec where
  tname : String
  inner_job_ids : List Nat
  outer_job_ids : List Nat
  parameters : List Nat
  parent_job_id : Nat
deriving DecidableEq, Repr

/-- State of `TemplateManager`: the name-keyed template registry, whether
`job_manager_` has been set (non-null), and the complex jobs created in the
job manager (modelled from the spec: `TemplateEntry::Instantiate` creates a
single COMPLEX job with the supplied id vectors and parameters). -/
structure TemplateManagerState where
  template_map : List (String × TemplateEntry)
  jm_set : Bool
  complex_jobs : List ComplexJobRec
deriving DecidableEq, Repr

/-- `template_map_.find(name)` on the association-list registry. -/
def tmFind (name : String) (m : List (String × TemplateEntry)) :
    Option TemplateEntry :=
  (m.find? (fun p => p.1 == name)).map (fun p => p.2)

/-- Replace the entry stored under `name` (in-place mutation of
`iter->second` in the source). -/
def tmStore (name : String) (e : TemplateEntry)
    (m : List (String × TemplateEntry)) : List (String × TemplateEntry) :=
  m.map (fun p => if p.1 == name then (name, e) else p)

/-- `TemplateManager::DetectNewTemplate`: a fresh name creates a new entry; an
existing unfinalized entry is cleaned and detection restarts; an existing
finalized entry is an error (`false`, registry untouched). -/
def DetectNewTemplate (name : String) (st : TemplateManagerState) :
    Bool × TemplateManagerState :=
  match tmFind name st.template_map with
  | none =>
    (true, { st with template_map :=
               st.template_map ++ [(name, { finalized := false, compute_jobs := [] })] })
  | some e =>
    if !e.finalized then
      match CleanPartiallyFilledTemplate e with
      | some e2 => (true, { st with template_map := tmStore name e2 st.template_map })
      | none => (false, st)
    else (false, st)

/-- `TemplateManager::FinalizeNewTemplate`: an undetected name is an error;
otherwise forward to `TemplateEntry::Finalize`. -/
def FinalizeNewTemplate (name : String) (st : TemplateManagerState) :
    Bool × TemplateManagerState :=
  match tmFind name st.template_map with
  | some e =>
    match TemplateEntryFinalize e with
    | (b, e2) => (b, { st with template_map := tmStore name e2 st.template_map })
  | none => (false, st)

/-- `TemplateManager::AddComputeJobToTemplate`: an undetected name is an
error; a null job manager is an error; a finalized template cannot accept
further compute jobs; otherwise the descriptor is appended. -/
def AddComputeJobToTemplate (name : String) (tj : TemplateComputeJob)
    (st : TemplateManagerState) : Bool × TemplateManagerState :=
  match tmFind name st.template_map with
  | some e =>
    if !st.jm_set then (false, st)
    else if !e.finalized then
      let e2 : TemplateEntry := { e with compute_jobs := e.compute_jobs ++ [tj] }
      (true, { st with template_map := tmStore name e2 st.template_map })
    else (false, st)
  | none => (false, st)

/-- `TemplateManager::InstantiateTemplate`: an undetected name is an error; a
null job manager is an error; an unfinalized template cannot be instantiated;
otherwise one COMPLEX job is created with the supplied vectors. -/
def InstantiateTemplate (name : String) (inner_job_ids outer_job_ids : List Nat)
    (parameters : List Nat) (parent_job_id : Nat) (st : TemplateManagerState) :
    Bool × TemplateManagerState :=
  match tmFind name st.template_map with
  | some e =>
    if !st.jm_set then (false, st)
    else if e.finalized then
      (true, { st with complex_jobs :=
                 st.complex_jobs ++
                   [⟨name, inner_job_ids, outer_job_ids, parameters, parent_job_id⟩] })
    else (false, st)
  | none => (false, st)

/-!
The worker-side execution template (`ExecutionTemplate` header) assigns each
job template its ready-dependency count in the constructor of the respective
`JobTemplate` subclass.  The constructors are embedded as functions producing
the common `JobTemplate` payload. -/

/-- `ExecutionTemplate::JobTemplateType`. -/
inductive JobTemplateType where
  | BASE
  | COMPUTE
  | COMBINE
  | LC
  | RCS
  | RCR
  | MEGA_RCR
deriving DecidableEq, Repr

/-- The base `JobTemplate` fields set by every subclass constructor. -/
structure JobTemplateData where
  type_ : JobTemplateType
  before_set_ : List Nat
  dependency_num_ : Nat
deriving DecidableEq, Repr

/-- `ExecutionTemplate::ComputeJobTemplate` constructor:
`dependency_num_ = before_set.size()`. -/
def mkComputeJobTemplate (read_set_ptr write_set_ptr scratch_set_ptr reduce_set_ptr : List Nat)
    (before_set : List Nat) (future_job_id param_index : Nat) : JobTemplateData :=
  { type_ := .COMPUTE, before_set_ := before_set, dependency_num_ := before_set.length }

/-- `ExecutionTemplate::CombineJobTemplate` constructor:
`dependency_num_ = before_set.size()`. -/
def mkCombineJobTemplate (scratch_set_ptr reduce_set_ptr : List Nat)
    (before_set : List Nat) : JobTemplateData :=
  { type_ := .COMBINE, before_set_ := before_set, dependency_num_ := before_set.length }

/-- `ExecutionTemplate::LocalCopyJobTemplate` constructor:
`dependency_num_ = before_set.size()`. -/
def mkLocalCopyJobTemplate (from_physical_data_id to_physical_data_id : Nat)
    (before_set : List Nat) : JobTemplateData :=
  { type_ := .LC, before_set_ := before_set, dependency_num_ := before_set.length }

/-- `ExecutionTemplate::RemoteCopySendJobTemplate` constructor:
`dependency_num_ = before_set.size()`. -/
def mkRemoteCopySendJobTemplate (from_physical_data_id : Nat)
    (before_set : List Nat) : JobTemplateData :=
  { type_ := .RCS, before_set_ := before_set, dependency_num_ := before_set.length }

/-- `ExecutionTemplate::RemoteCopyReceiveJobTemplate` constructor:
`dependency_num_ = before_set.size() + 1` (the extra one for data delivery). -/
def mkRemoteCopyReceiveJobTemplate (to_physical_data_id : Nat)
    (before_set : List Nat) : JobTemplateData :=
  { type_ := .RCR, before_set_ := before_set, dependency_num_ := before_set.length + 1 }

/-- `ExecutionTemplate::MegaRCRJobTemplate` constructor:
`dependency_num_ = before_set.size() + to_phy_id_ptrs.size()` (one per data
delivery). -/
def mkMegaRCRJobTemplate (to_phy_id_ptrs : List Nat)
    (before_set : List Nat) : JobTemplateData :=
  { type_ := .MEGA_RCR, before_set_ := before_set,
    dependency_num_ := before_set.length + to_phy_id_ptrs.length }

/-! Predicates about lineage states used by the theorems. -/

/-- The chain's versions are strictly increasing from head to tail. -/
def VersionsSorted (l : List ChainNode) : Prop :=
  List.Pairwise (fun a b => a.2.version < b.2.version) l

/-- A single index entry either fails to dereference or dereferences to a
non-sterile lineage entry. -/
def nonSterileRefB (chain : List ChainNode) (r : ChainRef) : Bool :=
  match lookupNode chain r with
  | some e => !e.sterile
  | none => true

/-- Every parent-index entry that dereferences points at a non-sterile
lineage entry. -/
def NonSterileIndex (st : Lineage) : Prop :=
  ∀ r ∈ st.parents_index, nonSterileRefB st.chain r = true

/-- An index entry is either the `end()` sentinel or a node identity below the
fresh counter. -/
def refBoundB (fresh : Nat) : ChainRef → Bool
  | none => true
  | some nid => decide (nid < fresh)

/-- Basic well-formedness of the node-identity model: chain node identities
are distinct and below the fresh counter, and index entries are bounded
likewise. -/
def WfRefs (st : Lineage) : Prop :=
  (∀ c ∈ st.chain, c.1 < st.fresh) ∧
  (st.chain.map (fun c => c.1)).Nodup ∧
  (∀ r ∈ st.parents_index, refBoundB st.fresh r = true)

/-- The writers referenced by the parent index (the job ids seen by the
`CleanChain` scan). -/
def refJobIds (chain : List ChainNode) (index : List ChainRef) : List Nat :=
  index.filterMap (fun r => (lookupNode chain r).map (fun e => e.job_id))

/-- The parent index is exactly the list of iterators to the non-sterile
chain entries, in chain order — the shape `AppendLdlEntry` builds. -/
def CanonicalIndex (st : Lineage) : Prop :=
  st.parents_index =
    (st.chain.filter (fun c => !c.2.sterile)).map (fun c => (some c.1 : ChainRef))

/-! Concrete lineage states used as counterexamples and witnesses. -/

/-- A one-entry chain: job 1 wrote version 1, non-sterile. -/
def exLineage1 : Lineage :=
  { chain := [(0, ⟨1, 1, 0, false⟩)], parents_index := [some 0], fresh := 1 }

/-- A two-entry chain with versions 1 and 3, both non-sterile. -/
def exLineage2 : Lineage :=
  { chain := [(0, ⟨1, 1, 0, false⟩), (1, ⟨2, 3, 0, false⟩)],
    parents_index := [some 0, some 1], fresh := 2 }

/-- A three-entry chain with versions 1, 3 and 5, all non-sterile. -/
def exLineage3 : Lineage :=
  { chain := [(0, ⟨1, 1, 0, false⟩), (1, ⟨2, 3, 0, false⟩), (2, ⟨3, 5, 0, false⟩)],
    parents_index := [some 0, some 1, some 2], fresh := 3 }

/-- A four-entry chain with a sterile second entry, carrying the canonical
parent index built by appends. -/
def exLineage4 : Lineage :=
  { chain := [(0, ⟨1, 1, 0, false⟩), (1, ⟨2, 2, 0, true⟩),
              (2, ⟨3, 3, 0, false⟩), (3, ⟨4, 4, 0, false⟩)],
    parents_index := [some 0, some 2, some 3], fresh := 4 }

/-- A template registry with one finalized and one detecting template, with
the job manager set. -/
def exTM : TemplateManagerState :=
  { template_map :=
      [("frame", { finalized := true, compute_jobs := [] }),
       ("iter", { finalized := false, compute_jobs := [] })],
    jm_set := true, complex_jobs := [] }

/-- A sample compute-job descriptor. -/
def exTJ : TemplateComputeJob :=
  { job_name := "advect", job_id := 11, read_set := [1], write_set := [2],
    before_set := [10], after_set := [], parent_job_id := 9,
    future_job_id := 0, sterile := false }

instance (l : List ChainNode) : Decidable (VersionsSorted l) := by
  unfold VersionsSorted; exact inferInstance

instance (st : Lineage) : Decidable (NonSterileIndex st) := by
  unfold NonSterileIndex; exact inferInstance

instance (st : Lineage) : Decidable (WfRefs st) := by
  unfold WfRefs; exact inferInstance

instance (st : Lineage) : Decidable (CanonicalIndex st) := by
  unfold CanonicalIndex; exact inferInstance

/-! Helper lemmas about the lineage operations. -/

/-- Inversion for a successful `AppendLdlEntry`. -/
theorem AppendLdlEntry_eq_some {j v d : Nat} {s : Bool} {st st' : Lineage}
    (h : AppendLdlEntry j v d s st = some st') :
    ∃ lv, LastVersionInChain st = some lv ∧ lv < v ∧
      st' = { chain := st.chain ++ [(st.fresh, ⟨j, v, d, s⟩)],
              parents_index :=
                if s then st.parents_index else st.parents_index ++ [some st.fresh],
              fresh := st.fresh + 1 } := by
  unfold AppendLdlEntry at h
  cases hl : LastVersionInChain st with
  | none => rw [hl] at h; cases h
  | some lv =>
    rw [hl] at h
    dsimp only at h
    split at h
    case isTrue hlt => exact ⟨lv, rfl, hlt, (Option.some.inj h).symm⟩
    case isFalse => cases h

/-- The two scan parts of the chain recombine to the chain. -/
theorem headLe_append_tailGt (v : Nat) (l : List ChainNode) :
    headLe v l ++ tailGt v l = l := by
  unfold headLe tailGt
  rw [← List.reverse_append, List.takeWhile_append_dropWhile, List.reverse_reverse]

/-- Entries skipped by the reverse scan all have version above `v`. -/
theorem mem_tailGt {v : Nat} {l : List ChainNode} {c : ChainNode}
    (h : c ∈ tailGt v l) : v < c.2.version := by
  unfold tailGt at h
  rw [List.mem_reverse] at h
  exact of_decide_eq_true
    (@List.mem_takeWhile_imp ChainNode (fun c => decide (v < c.2.version)) l.reverse c h)

/-- On a reverse-sorted list, everything at or after the scan stop has
version at most `v`. -/
theorem version_le_of_mem_dropWhile {v : Nat} :
    ∀ {r : List ChainNode}, List.Pairwise (fun a b => b.2.version < a.2.version) r →
      ∀ {c : ChainNode}, c ∈ r.dropWhile (fun c => decide (v < c.2.version)) →
      c.2.version ≤ v := by
  intro r
  induction r with
  | nil => intro _ c hc; simp [List.dropWhile] at hc
  | cons x xs ih =>
    intro hp c hc
    rw [List.pairwise_cons] at hp
    by_cases hx : v < x.2.version
    · rw [List.dropWhile_cons, if_pos (by simpa using hx)] at hc
      exact ih hp.2 hc
    · rw [List.dropWhile_cons, if_neg (by simpa using hx)] at hc
      rcases List.mem_cons.mp hc with rfl | hmem
    -- hmm
      · exact Nat.le_of_not_lt hx
      · exact le_of_lt (lt_of_lt_of_le (hp.1 c hmem) (Nat.le_of_not_lt hx))

/-- On a sorted chain, every entry in the front part of the scan split has
version at most `v`. -/
theorem mem_headLe_version_le {v : Nat} {l : List ChainNode}
    (hs : VersionsSorted l) {c : ChainNode} (h : c ∈ headLe v l) :
    c.2.version ≤ v := by
  unfold headLe at h
  rw [List.mem_reverse] at h
  have hrev : List.Pairwise (fun a b => b.2.version < a.2.version) l.reverse := by
    rw [List.pairwise_reverse]; exact hs
  exact version_le_of_mem_dropWhile hrev h

/-- On a sorted chain, every entry's version is bounded by the last one. -/
theorem version_le_getLast {l : List ChainNode} (hs : VersionsSorted l)
    {c : ChainNode} (hg : l.getLast? = some c) {a : ChainNode} (ha : a ∈ l) :
    a.2.version ≤ c.2.version := by
  have hl : l.dropLast ++ [c] = l :=
    List.dropLast_append_getLast? c (Option.mem_def.mpr hg)
  rw [← hl] at hs ha
  unfold VersionsSorted at hs
  rw [List.pairwise_append] at hs
  rcases List.mem_append.mp ha with h1 | h2
  · exact le_of_lt (hs.2.2 a h1 c (List.mem_singleton_self c))
  · rw [List.mem_singleton] at h2; subst h2; exact le_refl _

/-- The index scan of `InsertParentLdlEntry` only rearranges the (reversed)
index: the skipped part and the remainder recombine to the input. -/
theorem indexSplitRev_append {chain : List ChainNode} {v : Nat} :
    ∀ {rl gt rest : List ChainRef},
      indexSplitRev chain v rl = some (gt, rest) → gt ++ rest = rl := by
  intro rl
  induction rl with
  | nil =>
    intro gt rest h
    simp only [indexSplitRev, Option.some.injEq, Prod.mk.injEq] at h
    rw [← h.1, ← h.2]; rfl
  | cons r rs ih =>
    intro gt rest h
    unfold indexSplitRev at h
    cases hlk : lookupNode chain r with
    | none => rw [hlk] at h; cases h
    | some e =>
      rw [hlk] at h
      dsimp only at h
      by_cases hv : e.version ≤ v
      · rw [if_pos hv] at h
        simp only [Option.some.injEq, Prod.mk.injEq] at h
        rw [← h.1, ← h.2]; rfl
      · rw [if_neg hv] at h
        cases hrec : indexSplitRev chain v rs with
        | none => rw [hrec] at h; cases h
        | some p =>
          obtain ⟨gt', rest'⟩ := p
          rw [hrec] at h
          dsimp only at h
          simp only [Option.some.injEq, Prod.mk.injEq] at h
          rw [← h.1, ← h.2]
          simp [ih hrec]

/-- Inversion for a successful `InsertParentLdlEntry`. -/
theorem InsertParentLdlEntry_eq_some {j v d : Nat} {s : Bool} {st st' : Lineage}
    (h : InsertParentLdlEntry j v d s st = some st') :
    s = false ∧
    st'.chain =
      headLe v st.chain ++ (st.fresh, ⟨j, v, d, s⟩) :: tailGt v st.chain ∧
    st'.fresh = st.fresh + 1 ∧
    (∀ r ∈ st'.parents_index,
      r = ((tailGt v st.chain).head?).map (fun c => c.1) ∨ r ∈ st.parents_index) ∧
    (∀ r ∈ st'.parents_index,
      (match lookupNode st'.chain r with
       | some e => !e.sterile
       | none => false) = true) := by
  unfold InsertParentLdlEntry at h
  by_cases hs : s = true
  · rw [if_pos hs] at h; cases h
  · rw [if_neg hs] at h
    rw [Bool.not_eq_true] at hs
    dsimp only at h
    cases hsp : indexSplitRev
        (headLe v st.chain ++ (st.fresh, ⟨j, v, d, s⟩) :: tailGt v st.chain) v
        st.parents_index.reverse with
    | none => rw [hsp] at h; cases h
    | some p =>
      obtain ⟨gt, rest⟩ := p
      rw [hsp] at h
      dsimp only at h
      split at h
      next hall =>
        obtain rfl := (Option.some.inj h).symm
        refine ⟨hs, rfl, rfl, ?_, ?_⟩
        · intro r hr
          rcases List.mem_append.mp hr with h1 | h2
          · right
            have h1' := List.mem_reverse.mp h1
            rw [← List.mem_reverse, ← indexSplitRev_append hsp]
            exact List.mem_append_right _ h1'
          · rcases List.mem_cons.mp h2 with rfl | h3
            · left; rfl
            · right
              have h3' := List.mem_reverse.mp h3
              rw [← List.mem_reverse, ← indexSplitRev_append hsp]
              exact List.mem_append_left _ h3'
        · intro r hr
          rw [List.all_eq_true] at hall
          exact hall r hr
      next => cases h

/-- C9: `LastVersionInChain` is `none` exactly on the empty chain (it
dereferences `rbegin()` unconditionally), a successful `AppendLdlEntry`
presupposes a non-empty chain, and after any successful append the chain is
non-empty, so the `none` branch is unreachable from call sites that have
appended at least one entry. -/
theorem claim_C9 :
    (∀ st : Lineage, LastVersionInChain st = none ↔ st.chain = []) ∧
    (∀ (j v d : Nat) (s : Bool) (st st' : Lineage),
      AppendLdlEntry j v d s st = some st' → st.chain ≠ []) ∧
    (∀ (j v d : Nat) (s : Bool) (st st' : Lineage),
      AppendLdlEntry j v d s st = some st' → (LastVersionInChain st').isSome) := by
  refine ⟨?_, ?_, ?_⟩
  · intro st
    unfold LastVersionInChain
    rw [Option.map_eq_none']
    exact List.getLast?_eq_none_iff
  · intro j v d s st st' h hnil
    have hnone : LastVersionInChain st = none := by
      unfold LastVersionInChain; rw [hnil]; rfl
    unfold AppendLdlEntry at h
    rw [hnone] at h
    cases h
  · intro j v d s st st' h
    obtain ⟨lv, _, _, rfl⟩ := AppendLdlEntry_eq_some h
    unfold LastVersionInChain
    simp [List.getLast?_concat]

/-- C9 witness: instantiated at the one-entry chain and the append of
`(job 2, version 2)` to it. -/
theorem claim_C9_witness :
    exLineage1.chain ≠ [] ∧
    (LastVersionInChain
      { chain := [(0, ⟨1, 1, 0, false⟩), (1, ⟨2, 2, 0, false⟩)],
        parents_index := [some 0, some 1], fresh := 2 }).isSome :=
  ⟨claim_C9.2.1 2 2 0 false exLineage1
      { chain := [(0, ⟨1, 1, 0, false⟩), (1, ⟨2, 2, 0, false⟩)],
        parents_index := [some 0, some 1], fresh := 2 } (by decide),
   claim_C9.2.2 2 2 0 false exLineage1
      { chain := [(0, ⟨1, 1, 0, false⟩), (1, ⟨2, 2, 0, false⟩)],
        parents_index := [some 0, some 1], fresh := 2 } (by decide)⟩

/-- If some member of the working set is never a referenced writer, the
`CleanChain` scan exhausts the index and aborts. -/
theorem cleanScan_eq_none_of_absent {chain : List ChainNode} {j : Nat} :
    ∀ (rl : List ChainRef) (temp : List Nat), j ∈ temp →
      (∀ r ∈ rl, ∀ e, lookupNode chain r = some e → e.job_id ≠ j) →
      cleanScan chain temp rl = none := by
  intro rl
  induction rl with
  | nil => intro temp _ _; rfl
  | cons r rs ih =>
    intro temp hj hr
    cases hlk : lookupNode chain r with
    | none => simp [cleanScan, hlk]
    | some e =>
      have hne : e.job_id ≠ j := hr r (List.mem_cons_self r rs) e hlk
      have hmem : j ∈ temp.filter (fun x => !(x == e.job_id)) := by
        rw [List.mem_filter]
        refine ⟨hj, ?_⟩
        simp [Ne.symm hne]
      have hemp : (temp.filter (fun x => !(x == e.job_id))).isEmpty = false := by
        rw [List.isEmpty_eq_false]
        intro hnil
        rw [hnil] at hmem
        cases hmem
      have hrec := ih (temp.filter (fun x => !(x == e.job_id))) hmem
        (fun r' hr' e' he' => hr r' (List.mem_cons_of_mem _ hr') e' he')
      simp [cleanScan, hlk, hemp, hrec]

/-- C10: `CleanChain` with a non-empty live set presupposes that every live
job id occurs as a writer referenced by the parent index; if some live
parent is absent, the scan exhausts the index with the working set still
non-empty and the operation aborts via the assertion (modelled `none`)
rather than returning failure. -/
theorem claim_C10 :
    ∀ (live : List Nat) (st : Lineage) (j : Nat),
      j ∈ live → j ∉ refJobIds st.chain st.parents_index →
      CleanChain live st = none := by
  intro live st j hj habs
  have hne : live.isEmpty = false := by
    rw [List.isEmpty_eq_false]
    intro h; rw [h] at hj; cases hj
  have hsc : cleanScan st.chain live st.parents_index.reverse = none := by
    apply cleanScan_eq_none_of_absent _ _ hj
    intro r hr e he hje
    apply habs
    unfold refJobIds
    rw [List.mem_filterMap]
    exact ⟨r, List.mem_reverse.mp hr, by rw [he, Option.map_some']; rw [hje]⟩
  simp [CleanChain, hne, hsc]

/-- C10 witness: job 7 is live but no chain writer referenced by the index
has id 7, so the clean aborts. -/
theorem claim_C10_witness : CleanChain [7] exLineage1 = none :=
  claim_C10 [7] exLineage1 7 (by decide) (by decide)

/-- A successful append keeps the chain's versions strictly increasing. -/
theorem versionsSorted_after_append {j v d : Nat} {s : Bool} {st st' : Lineage}
    (hs : VersionsSorted st.chain) (h : AppendLdlEntry j v d s st = some st') :
    VersionsSorted st'.chain := by
  obtain ⟨lv, hlast, hlt, rfl⟩ := AppendLdlEntry_eq_some h
  unfold LastVersionInChain at hlast
  obtain ⟨c, hg, hv⟩ := Option.map_eq_some'.mp hlast
  unfold VersionsSorted
  dsimp only
  rw [List.pairwise_append]
  refine ⟨hs, List.pairwise_singleton _ _, ?_⟩
  intro a ha b hb
  rw [List.mem_singleton] at hb
  subst hb
  have hle : a.2.version ≤ c.2.version := version_le_getLast hs hg ha
  dsimp only
  omega

/-- A successful parent splice at a version not already present keeps the
chain's versions strictly increasing. -/
theorem versionsSorted_after_insert {j v d : Nat} {s : Bool} {st st' : Lineage}
    (hs : VersionsSorted st.chain) (hnv : ∀ c ∈ st.chain, c.2.version ≠ v)
    (h : InsertParentLdlEntry j v d s st = some st') :
    VersionsSorted st'.chain := by
  obtain ⟨-, hchain, -, -, -⟩ := InsertParentLdlEntry_eq_some h
  rw [hchain]
  have hsplit := headLe_append_tailGt v st.chain
  have hs' : List.Pairwise (fun a b : ChainNode => a.2.version < b.2.version)
      (headLe v st.chain ++ tailGt v st.chain) := by
    rw [hsplit]; exact hs
  rw [List.pairwise_append] at hs'
  unfold VersionsSorted
  rw [List.pairwise_append]
  refine ⟨hs'.1, ?_, ?_⟩
  · rw [List.pairwise_cons]
    exact ⟨fun b hb => mem_tailGt hb, hs'.2.1⟩
  · intro a ha b hb
    have hle : a.2.version ≤ v := mem_headLe_version_le hs ha
    have hne : a.2.version ≠ v := hnv a (by rw [← hsplit]; exact List.mem_append_left _ ha)
    have hav : a.2.version < v := lt_of_le_of_ne hle hne
    rcases List.mem_cons.mp hb with rfl | h3
    · exact hav
    · exact lt_trans hav (mem_tailGt h3)

/-- A successful dereference exhibits a chain node with the sought identity. -/
theorem lookupNode_some_elim {l : List ChainNode} {nid : Nat} {e : LdlEntry}
    (h : lookupNode l (some nid) = some e) :
    ∃ c, c ∈ l ∧ c.1 = nid ∧ c.2 = e := by
  unfold lookupNode at h
  obtain ⟨c, hfind, hmap⟩ := Option.map_eq_some'.mp h
  refine ⟨c, List.mem_of_find?_eq_some hfind, ?_, hmap⟩
  have := List.find?_some hfind
  simpa using this

/-- With distinct node identities, dereferencing a member node's identity
yields that node's entry. -/
theorem lookupNode_of_mem :
    ∀ {l : List ChainNode}, (l.map (fun c => c.1)).Nodup →
      ∀ {x : ChainNode}, x ∈ l → lookupNode l (some x.1) = some x.2 := by
  intro l
  induction l with
  | nil => intro _ x hx; cases hx
  | cons y ys ih =>
    intro hnd x hx
    rw [List.map_cons, List.nodup_cons] at hnd
    rcases List.mem_cons.mp hx with rfl | hmem
    · unfold lookupNode
      dsimp only
      rw [List.find?_cons_of_pos _ (by simp)]
      rfl
    · have hne : ¬ ((fun c : ChainNode => c.1 == x.1) y) = true := by
        simp only [beq_iff_eq]
        intro he
        exact hnd.1 (he ▸ List.mem_map_of_mem (fun c => c.1) hmem)
      unfold lookupNode
      dsimp only
      rw [@List.find?_cons_of_neg ChainNode (fun c => c.1 == x.1) y ys hne]
      exact ih hnd.2 hmem

/-- In a chain with distinct node identities, a dereference that succeeds in
a sub-chain succeeds identically in the chain. -/
theorem lookupNode_of_sublist {chain sub : List ChainNode}
    (hnd : (chain.map (fun c => c.1)).Nodup) (hsub : sub.Sublist chain)
    {r : ChainRef} {e : LdlEntry} (h : lookupNode sub r = some e) :
    lookupNode chain r = some e := by
  cases r with
  | none => cases h
  | some nid =>
    obtain ⟨c, hc, hid, hee⟩ := lookupNode_some_elim h
    have := lookupNode_of_mem hnd (hsub.mem hc)
    rw [hid, hee] at this
    exact this

/-- Index-entry bounds only loosen as the fresh counter grows. -/
theorem refBoundB_mono {f f' : Nat} {r : ChainRef}
    (h : refBoundB f r = true) (hle : f ≤ f') : refBoundB f' r = true := by
  cases r with
  | none => rfl
  | some nid =>
    simp only [refBoundB, decide_eq_true_eq] at h ⊢
    omega

/-- Appending a node with a fresh identity does not change the dereference of
any bounded index entry, so non-sterility of its target is preserved. -/
theorem nonSterileRefB_append {chain : List ChainNode} {fresh : Nat}
    {e : LdlEntry} (hb : ∀ c ∈ chain, c.1 < fresh) {r : ChainRef}
    (hrb : refBoundB fresh r = true) (hns : nonSterileRefB chain r = true) :
    nonSterileRefB (chain ++ [(fresh, e)]) r = true := by
  cases r with
  | none => rfl
  | some nid =>
    simp only [refBoundB, decide_eq_true_eq] at hrb
    unfold nonSterileRefB lookupNode at hns ⊢
    dsimp only at hns ⊢
    rw [List.find?_append]
    cases hfind : List.find? (fun c => c.1 == nid) chain with
    | some c =>
      rw [hfind] at hns
      simpa using hns
    | none =>
      have hnew : ((fun c : ChainNode => c.1 == nid) (fresh, e)) = false := by
        simp
        omega
      simp [hnew]

/-- Every index entry kept by the `CleanChain` scan comes from the scanned
index. -/
theorem cleanScan_mem {chain : List ChainNode} :
    ∀ {rl : List ChainRef} {temp : List Nat} {stop : ChainRef}
      {acc : List ChainRef},
      cleanScan chain temp rl = some (stop, acc) → ∀ r ∈ acc, r ∈ rl := by
  intro rl
  induction rl with
  | nil => intro temp stop acc h; cases h
  | cons r rs ih =>
    intro temp stop acc h r' hr'
    unfold cleanScan at h
    cases hlk : lookupNode chain r with
    | none => rw [hlk] at h; cases h
    | some e =>
      rw [hlk] at h
      dsimp only at h
      by_cases hemp : (temp.filter (fun x => !(x == e.job_id))).isEmpty = true
      · rw [if_pos hemp] at h
        simp only [Option.some.injEq, Prod.mk.injEq] at h
        obtain ⟨-, h2⟩ := h
        rw [← h2] at hr'
        rw [List.mem_singleton] at hr'
        subst hr'
        exact List.mem_cons_self _ _
      · rw [if_neg hemp] at h
        cases hrec : cleanScan chain (temp.filter (fun x => !(x == e.job_id))) rs with
        | none => rw [hrec] at h; cases h
        | some p =>
          obtain ⟨stop2, acc2⟩ := p
          rw [hrec] at h
          dsimp only at h
          simp only [Option.some.injEq, Prod.mk.injEq] at h
          obtain ⟨-, h2⟩ := h
          rw [← h2] at hr'
          rcases List.mem_cons.mp hr' with rfl | h3
          · exact List.mem_cons_self _ _
          · exact List.mem_cons_of_mem _ (ih hrec r' h3)

/-- Well-formedness and index non-sterility are preserved by a successful
`AppendLdlEntry`. -/
theorem preserved_append {j v d : Nat} {s : Bool} {st st' : Lineage}
    (hwf : WfRefs st) (hns : NonSterileIndex st)
    (h : AppendLdlEntry j v d s st = some st') :
    WfRefs st' ∧ NonSterileIndex st' := by
  obtain ⟨lv, -, -, rfl⟩ := AppendLdlEntry_eq_some h
  obtain ⟨hb, hnd, hrb⟩ := hwf
  constructor
  · refine ⟨?_, ?_, ?_⟩
    · intro c hc
      rcases List.mem_append.mp hc with h1 | h2
      · exact Nat.lt_succ_of_lt (hb c h1)
      · rw [List.mem_singleton] at h2; subst h2; exact Nat.lt_succ_self _
    · simp only [List.map_append, List.map_cons, List.map_nil]
      rw [List.nodup_append]
      refine ⟨hnd, List.nodup_singleton _, ?_⟩
      intro a ha ha2
      rw [List.mem_singleton] at ha2
      subst ha2
      obtain ⟨c, hc, hc1⟩ := List.mem_map.mp ha
      exact absurd hc1 (Nat.ne_of_lt (hb c hc))
    · intro r hr
      dsimp only at hr
      by_cases hs : s = true
      · rw [if_pos hs] at hr
        exact refBoundB_mono (hrb r hr) (Nat.le_succ _)
      · rw [if_neg hs] at hr
        rcases List.mem_append.mp hr with h1 | h2
        · exact refBoundB_mono (hrb r h1) (Nat.le_succ _)
        · rw [List.mem_singleton] at h2; subst h2
          simp [refBoundB]
  · intro r hr
    dsimp only at hr ⊢
    by_cases hs : s = true
    · rw [if_pos hs] at hr
      exact nonSterileRefB_append hb (hrb r hr) (hns r hr)
    · rw [if_neg hs] at hr
      rcases List.mem_append.mp hr with h1 | h2
      · exact nonSterileRefB_append hb (hrb r h1) (hns r h1)
      · rw [List.mem_singleton] at h2; subst h2
        unfold nonSterileRefB lookupNode
        dsimp only
        rw [List.find?_append]
        have hnone : List.find? (fun c => c.1 == st.fresh) st.chain = none := by
          rw [List.find?_eq_none]
          intro c hc
          simp [Nat.ne_of_lt (hb c hc)]
        rw [hnone]
        rw [Bool.not_eq_true] at hs
        simp [hs]

/-- Well-formedness is preserved and index non-sterility established by a
successful `InsertParentLdlEntry` (its check loop verifies every index
entry). -/
theorem preserved_insert {j v d : Nat} {s : Bool} {st st' : Lineage}
    (hwf : WfRefs st) (h : InsertParentLdlEntry j v d s st = some st') :
    WfRefs st' ∧ NonSterileIndex st' := by
  obtain ⟨hs, hchain, hfresh, hmem, hall⟩ := InsertParentLdlEntry_eq_some h
  obtain ⟨hb, hnd, hrb⟩ := hwf
  have hsplit := headLe_append_tailGt v st.chain
  constructor
  · refine ⟨?_, ?_, ?_⟩
    · intro c hc
      rw [hchain] at hc
      rw [hfresh]
      rcases List.mem_append.mp hc with h1 | h2
      · have : c ∈ st.chain := by rw [← hsplit]; exact List.mem_append_left _ h1
        exact Nat.lt_succ_of_lt (hb c this)
      · rcases List.mem_cons.mp h2 with rfl | h3
        · exact Nat.lt_succ_self _
        · have : c ∈ st.chain := by rw [← hsplit]; exact List.mem_append_right _ h3
          exact Nat.lt_succ_of_lt (hb c this)
    · rw [hchain]
      simp only [List.map_append, List.map_cons]
      rw [List.nodup_middle, List.nodup_cons]
      constructor
      · intro hmem2
        have hmem3 : st.fresh ∈ List.map (fun c => c.1) st.chain := by
          rw [← hsplit, List.map_append]
          exact hmem2
        obtain ⟨c, hc, hc1⟩ := List.mem_map.mp hmem3
        exact absurd hc1 (Nat.ne_of_lt (hb c hc))
      · rw [← List.map_append, hsplit]
        exact hnd
    · intro r hr
      rw [hfresh]
      rcases hmem r hr with h1 | h2
      · cases htg : tailGt v st.chain with
        | nil => rw [htg] at h1; subst h1; rfl
        | cons hd tl =>
          rw [htg] at h1
          subst h1
          have : hd ∈ st.chain := by
            rw [← hsplit, htg]
            exact List.mem_append_right _ (List.mem_cons_self _ _)
          simp only [List.head?_cons, Option.map_some', refBoundB, decide_eq_true_eq]
          exact Nat.lt_succ_of_lt (hb hd this)
      · exact refBoundB_mono (hrb r h2) (Nat.le_succ _)
  · intro r hr
    have h2 := hall r hr
    unfold nonSterileRefB
    cases hlk : lookupNode st'.chain r with
    | none => rfl
    | some e =>
      rw [hlk] at h2
      exact h2

/-- A state made of a sub-chain and a sub-index of a well-formed state, with
the fresh counter kept, is well-formed with a non-sterile index. -/
theorem sub_state_preserves {st : Lineage} (hwf : WfRefs st)
    (hns : NonSterileIndex st) {ch : List ChainNode} {ix : List ChainRef}
    (hsub : ch.Sublist st.chain) (hix : ∀ r ∈ ix, r ∈ st.parents_index) :
    WfRefs { chain := ch, parents_index := ix, fresh := st.fresh } ∧
    NonSterileIndex { chain := ch, parents_index := ix, fresh := st.fresh } := by
  obtain ⟨hb, hnd, hrb⟩ := hwf
  refine ⟨⟨?_, ?_, ?_⟩, ?_⟩
  · intro c hc
    exact hb c (hsub.mem hc)
  · exact List.Nodup.sublist (hsub.map (fun c => c.1)) hnd
  · intro r hr
    exact hrb r (hix r hr)
  · intro r hr
    unfold nonSterileRefB
    cases hlk : lookupNode ch r with
    | none => rfl
    | some e =>
      have hfull := lookupNode_of_sublist hnd hsub hlk
      have h2 := hns r (hix r hr)
      unfold nonSterileRefB at h2
      rw [hfull] at h2
      exact h2

/-- Well-formedness and index non-sterility are preserved by a successful
`CleanChain`. -/
theorem preserved_clean {live : List Nat} {st st' : Lineage}
    (hwf : WfRefs st) (hns : NonSterileIndex st)
    (h : CleanChain live st = some st') :
    WfRefs st' ∧ NonSterileIndex st' := by
  unfold CleanChain at h
  by_cases hle : live.isEmpty = true
  · rw [if_pos hle] at h
    obtain rfl := (Option.some.inj h).symm
    exact sub_state_preserves hwf hns (List.nil_sublist _) (fun r hr => absurd hr (by simp))
  · rw [if_neg hle] at h
    cases hsc : cleanScan st.chain live st.parents_index.reverse with
    | none => rw [hsc] at h; cases h
    | some p =>
      obtain ⟨stop, acc⟩ := p
      rw [hsc] at h
      dsimp only at h
      have hidx : ∀ r ∈ acc.reverse, r ∈ st.parents_index := by
        intro r hr
        have := cleanScan_mem hsc r (List.mem_reverse.mp hr)
        exact List.mem_reverse.mp this
      cases stop with
      | none =>
        obtain rfl := (Option.some.inj h).symm
        exact sub_state_preserves hwf hns (List.nil_sublist _) hidx
      | some nid =>
        obtain rfl := (Option.some.inj h).symm
        exact sub_state_preserves hwf hns (List.dropWhile_sublist _) hidx

/-- C5: over the node-identity well-formedness invariant, every parent-index
entry that dereferences points at a non-sterile lineage entry, and this is
preserved by `AppendLdlEntry`, `InsertParentLdlEntry` and `CleanChain`;
moreover `AppendLdlEntry` with a sterile entry adds no index entry, and
`InsertParentLdlEntry` asserts a non-sterile argument (a sterile call
aborts). -/
theorem claim_C5 :
    (∀ (j v d : Nat) (s : Bool) (st st' : Lineage),
      WfRefs st → NonSterileIndex st → AppendLdlEntry j v d s st = some st' →
      WfRefs st' ∧ NonSterileIndex st') ∧
    (∀ (j v d : Nat) (s : Bool) (st st' : Lineage),
      WfRefs st → InsertParentLdlEntry j v d s st = some st' →
      WfRefs st' ∧ NonSterileIndex st') ∧
    (∀ (live : List Nat) (st st' : Lineage),
      WfRefs st → NonSterileIndex st → CleanChain live st = some st' →
      WfRefs st' ∧ NonSterileIndex st') ∧
    (∀ (j v d : Nat) (st : Lineage), InsertParentLdlEntry j v d true st = none) ∧
    (∀ (j v d : Nat) (st st' : Lineage),
      AppendLdlEntry j v d true st = some st' →
      st'.parents_index = st.parents_index) := by
  refine ⟨fun _ _ _ _ _ _ hwf hns h => preserved_append hwf hns h,
          fun _ _ _ _ _ _ hwf h => preserved_insert hwf h,
          fun _ _ _ hwf hns h => preserved_clean hwf hns h,
          fun _ _ _ _ => rfl, ?_⟩
  intro j v d st st' h
  obtain ⟨lv, -, -, rfl⟩ := AppendLdlEntry_eq_some h
  rfl

/-- C5 witness: the invariant carried through a concrete append, a concrete
parent splice, a concrete clean, and a sterile append leaving the index
unchanged. -/
theorem claim_C5_witness :
    (WfRefs { chain := [(0, ⟨1, 1, 0, false⟩), (1, ⟨2, 2, 0, false⟩)],
              parents_index := [some 0, some 1], fresh := 2 } ∧
     NonSterileIndex { chain := [(0, ⟨1, 1, 0, false⟩), (1, ⟨2, 2, 0, false⟩)],
                       parents_index := [some 0, some 1], fresh := 2 }) ∧
    (WfRefs { chain := [(0, ⟨1, 1, 0, false⟩), (2, ⟨5, 2, 0, false⟩), (1, ⟨2, 3, 0, false⟩)],
              parents_index := [some 0, some 1, some 1], fresh := 3 } ∧
     NonSterileIndex
       { chain := [(0, ⟨1, 1, 0, false⟩), (2, ⟨5, 2, 0, false⟩), (1, ⟨2, 3, 0, false⟩)],
         parents_index := [some 0, some 1, some 1], fresh := 3 }) ∧
    (WfRefs { chain := [(1, ⟨2, 3, 0, false⟩)], parents_index := [some 1], fresh := 2 } ∧
     NonSterileIndex { chain := [(1, ⟨2, 3, 0, false⟩)], parents_index := [some 1], fresh := 2 }) ∧
    ({ chain := [(0, ⟨1, 1, 0, false⟩), (1, ⟨9, 4, 0, true⟩)],
       parents_index := [some 0], fresh := 2 } : Lineage).parents_index =
      exLineage1.parents_index :=
  ⟨claim_C5.1 2 2 0 false exLineage1
      { chain := [(0, ⟨1, 1, 0, false⟩), (1, ⟨2, 2, 0, false⟩)],
        parents_index := [some 0, some 1], fresh := 2 }
      (by decide) (by decide) (by decide),
   claim_C5.2.1 5 2 0 false exLineage2
      { chain := [(0, ⟨1, 1, 0, false⟩), (2, ⟨5, 2, 0, false⟩), (1, ⟨2, 3, 0, false⟩)],
        parents_index := [some 0, some 1, some 1], fresh := 3 }
      (by decide) (by decide),
   claim_C5.2.2.1 [2] exLineage2
      { chain := [(1, ⟨2, 3, 0, false⟩)], parents_index := [some 1], fresh := 2 }
      (by decide) (by decide) (by decide),
   claim_C5.2.2.2.2 9 4 0 exLineage1
      { chain := [(0, ⟨1, 1, 0, false⟩), (1, ⟨9, 4, 0, true⟩)],
        parents_index := [some 0], fresh := 2 }
      (by decide)⟩

/-- C1 (amended): strictly increasing chain versions are preserved by
`AppendLdlEntry` (whose assertion requires the new version to exceed the last
version), and by `InsertParentLdlEntry` provided the spliced version does not
already occur in the chain — inserting an already-present version duplicates
it, because the tail scan stops at the first entry with version `≤` the new
version. -/
theorem claim_C1 :
    (∀ (j v d : Nat) (s : Bool) (st st' : Lineage),
      VersionsSorted st.chain → AppendLdlEntry j v d s st = some st' →
      VersionsSorted st'.chain) ∧
    (∀ (j v d : Nat) (s : Bool) (st st' : Lineage),
      VersionsSorted st.chain → (∀ c ∈ st.chain, c.2.version ≠ v) →
      InsertParentLdlEntry j v d s st = some st' → VersionsSorted st'.chain) :=
  ⟨fun _ _ _ _ _ _ hs h => versionsSorted_after_append hs h,
   fun _ _ _ _ _ _ hs hnv h => versionsSorted_after_insert hs hnv h⟩

/-- C1 witness: appending version 2 to the sorted one-entry chain, and
splicing version 2 (absent) into the sorted chain `1 < 3`. -/
theorem claim_C1_witness :
    VersionsSorted ([(0, ⟨1, 1, 0, false⟩), (1, ⟨2, 2, 0, false⟩)] : List ChainNode) ∧
    VersionsSorted
      ([(0, ⟨1, 1, 0, false⟩), (2, ⟨5, 2, 0, false⟩), (1, ⟨2, 3, 0, false⟩)] : List ChainNode) :=
  ⟨claim_C1.1 2 2 0 false exLineage1
      { chain := [(0, ⟨1, 1, 0, false⟩), (1, ⟨2, 2, 0, false⟩)],
        parents_index := [some 0, some 1], fresh := 2 } (by decide) (by decide),
   claim_C1.2 5 2 0 false exLineage2
      { chain := [(0, ⟨1, 1, 0, false⟩), (2, ⟨5, 2, 0, false⟩), (1, ⟨2, 3, 0, false⟩)],
        parents_index := [some 0, some 1, some 1], fresh := 3 }
      (by decide) (by decide) (by decide)⟩

/-- C7: the ready-dependency count of each worker-side job template is fixed
by its kind: a remote-copy-receive template has
`dependency_num = size(before_set) + 1`, a mega-receive template has
`dependency_num = size(before_set) + size(to_phy_ids)`, and compute, combine,
local-copy and remote-copy-send templates have
`dependency_num = size(before_set)`. -/
theorem claim_C7 :
    (∀ (to_phy : Nat) (before_set : List Nat),
      (mkRemoteCopyReceiveJobTemplate to_phy before_set).dependency_num_ =
        before_set.length + 1) ∧
    (∀ (to_phy_id_ptrs before_set : List Nat),
      (mkMegaRCRJobTemplate to_phy_id_ptrs before_set).dependency_num_ =
        before_set.length + to_phy_id_ptrs.length) ∧
    (∀ (r w sc rd before_set : List Nat) (fu pi : Nat),
      (mkComputeJobTemplate r w sc rd before_set fu pi).dependency_num_ =
        before_set.length) ∧
    (∀ (sc rd before_set : List Nat),
      (mkCombineJobTemplate sc rd before_set).dependency_num_ =
        before_set.length) ∧
    (∀ (a b : Nat) (before_set : List Nat),
      (mkLocalCopyJobTemplate a b before_set).dependency_num_ =
        before_set.length) ∧
    (∀ (a : Nat) (before_set : List Nat),
      (mkRemoteCopySendJobTemplate a before_set).dependency_num_ =
        before_set.length) :=
  ⟨fun _ _ => rfl, fun _ _ => rfl, fun _ _ _ _ _ _ _ => rfl,
   fun _ _ _ => rfl, fun _ _ _ => rfl, fun _ _ => rfl⟩

/-- C8: `CleanChain` on the empty live-parent set succeeds for every lineage
state and leaves both the chain and the parent index empty. -/
theorem claim_C8 :
    ∀ st : Lineage,
      CleanChain [] st = some { chain := [], parents_index := [], fresh := st.fresh } :=
  fun _ => rfl

/-- C6: every template-engine operation invoked in the wrong state returns
`false` and leaves the template manager state unchanged: detect on a
finalized template; finalize, add-compute and instantiate on an undetected
name; add-compute on a finalized template; instantiate on an unfinalized
template (hence no complex job is created). -/
theorem claim_C6 :
    (∀ (name : String) (st : TemplateManagerState) (e : TemplateEntry),
      tmFind name st.template_map = some e → e.finalized = true →
      DetectNewTemplate name st = (false, st)) ∧
    (∀ (name : String) (st : TemplateManagerState),
      tmFind name st.template_map = none →
      FinalizeNewTemplate name st = (false, st)) ∧
    (∀ (name : String) (tj : TemplateComputeJob) (st : TemplateManagerState),
      tmFind name st.template_map = none →
      AddComputeJobToTemplate name tj st = (false, st)) ∧
    (∀ (name : String) (tj : TemplateComputeJob) (st : TemplateManagerState)
      (e : TemplateEntry),
      tmFind name st.template_map = some e → e.finalized = true →
      AddComputeJobToTemplate name tj st = (false, st)) ∧
    (∀ (name : String) (i o p : List Nat) (pa : Nat) (st : TemplateManagerState),
      tmFind name st.template_map = none →
      InstantiateTemplate name i o p pa st = (false, st)) ∧
    (∀ (name : String) (i o p : List Nat) (pa : Nat) (st : TemplateManagerState)
      (e : TemplateEntry),
      tmFind name st.template_map = some e → e.finalized = false →
      InstantiateTemplate name i o p pa st = (false, st)) := by
  refine ⟨?_, ?_, ?_, ?_, ?_, ?_⟩
  · intro name st e hf hfin
    unfold DetectNewTemplate
    rw [hf]
    simp [hfin]
  · intro name st hf
    unfold FinalizeNewTemplate
    rw [hf]
  · intro name tj st hf
    unfold AddComputeJobToTemplate
    rw [hf]
  · intro name tj st e hf hfin
    unfold AddComputeJobToTemplate
    rw [hf]
    cases hjm : st.jm_set <;> simp [hfin]
  · intro name i o p pa st hf
    unfold InstantiateTemplate
    rw [hf]
  · intro name i o p pa st e hf hfin
    unfold InstantiateTemplate
    rw [hf]
    cases hjm : st.jm_set <;> simp [hfin]

/-- C6 witness: the wrong-state refusals at a concrete registry holding the
finalized template `"frame"` and the detecting template `"iter"`. -/
theorem claim_C6_witness :
    DetectNewTemplate "frame" exTM = (false, exTM) ∧
    FinalizeNewTemplate "bogus" exTM = (false, exTM) ∧
    AddComputeJobToTemplate "bogus" exTJ exTM = (false, exTM) ∧
    AddComputeJobToTemplate "frame" exTJ exTM = (false, exTM) ∧
    InstantiateTemplate "bogus" [1] [2] [3] 0 exTM = (false, exTM) ∧
    InstantiateTemplate "iter" [1] [2] [3] 0 exTM = (false, exTM) :=
  ⟨claim_C6.1 "frame" exTM { finalized := true, compute_jobs := [] } (by decide) rfl,
   claim_C6.2.1 "bogus" exTM (by decide),
   claim_C6.2.2.1 "bogus" exTJ exTM (by decide),
   claim_C6.2.2.2.1 "frame" exTJ exTM { finalized := true, compute_jobs := [] }
     (by decide) rfl,
   claim_C6.2.2.2.2.1 "bogus" [1] [2] [3] 0 exTM (by decide),
   claim_C6.2.2.2.2.2 "iter" [1] [2] [3] 0 exTM { finalized := false, compute_jobs := [] }
     (by decide) rfl⟩

/-- C3 (code bug): splicing `(5, version 2)` into the chain `1 < 3` stores,
as the refreshed parent-index entry, the iterator `it.base()` — which points
at the *successor* chain node `(2, version 3)` (node identity 1) — so the
resulting index `[some 0, some 1, some 1]` never references the freshly
inserted node (identity 2). -/
theorem claim_C3 :
    InsertParentLdlEntry 5 2 0 false exLineage2 =
      some { chain := [(0, ⟨1, 1, 0, false⟩), (2, ⟨5, 2, 0, false⟩), (1, ⟨2, 3, 0, false⟩)],
             parents_index := [some 0, some 1, some 1], fresh := 3 } ∧
    ∀ r ∈ ([some 0, some 1, some 1] : List ChainRef), r ≠ some 2 := by
  decide

/-- C4 (code bug): at a version strictly above the whole chain,
`AppendLdlEntry` succeeds and indexes the new tail entry, while
`InsertParentLdlEntry` stores the `end()` sentinel in the parent index and
its own check loop then dereferences that sentinel — undefined behaviour,
modelled as `none` — so the two operations do not agree. -/
theorem claim_C4 :
    AppendLdlEntry 2 5 0 false exLineage1 =
      some { chain := [(0, ⟨1, 1, 0, false⟩), (1, ⟨2, 5, 0, false⟩)],
             parents_index := [some 0, some 1], fresh := 2 } ∧
    InsertParentLdlEntry 2 5 0 false exLineage1 = none := by
  decide

/-- Scanning the canonical reversed index: the scan stops at the tail-most
position after which every working-set writer has been seen, returning that
entry's iterator and the scanned index segment. -/
theorem cleanScan_canon {chain : List ChainNode}
    (hnd : (chain.map (fun c => c.1)).Nodup) :
    ∀ (fs : List ChainNode) (temp : List Nat), temp ≠ [] →
      (∀ c ∈ fs, c ∈ chain) →
      (∀ jb ∈ temp, jb ∈ fs.map (fun c => c.2.job_id)) →
      ∃ f1 c f2, fs = f1 ++ c :: f2 ∧
        cleanScan chain temp (fs.map (fun x => (some x.1 : ChainRef))) =
          some (some c.1, (f1 ++ [c]).map (fun x => (some x.1 : ChainRef))) ∧
        c.2.job_id ∈ temp ∧
        (∀ jb ∈ temp, jb ∈ (f1 ++ [c]).map (fun x => x.2.job_id)) := by
  intro fs
  induction fs with
  | nil =>
    intro temp hne _ hlive
    obtain ⟨jb, hjb⟩ := List.exists_mem_of_ne_nil temp hne
    exact absurd (hlive jb hjb) (by simp)
  | cons x xs ih =>
    intro temp hne hmem hlive
    have hlkx : lookupNode chain (some x.1) = some x.2 :=
      lookupNode_of_mem hnd (hmem x (List.mem_cons_self _ _))
    by_cases hemp : (temp.filter (fun t => !(t == x.2.job_id))).isEmpty = true
    · refine ⟨[], x, xs, rfl, ?_, ?_, ?_⟩
      · simp only [List.map_cons]
        unfold cleanScan
        rw [hlkx]
        dsimp only
        rw [if_pos hemp]
        rfl
      · obtain ⟨jb, hjb⟩ := List.exists_mem_of_ne_nil temp hne
        have heq : jb = x.2.job_id := by
          by_contra hneq
          have h3 : jb ∈ temp.filter (fun t => !(t == x.2.job_id)) := by
            rw [List.mem_filter]; exact ⟨hjb, by simp [hneq]⟩
          rw [List.isEmpty_iff.mp hemp] at h3
          cases h3
        exact heq ▸ hjb
      · intro jb hjb
        have heq : jb = x.2.job_id := by
          by_contra hneq
          have h3 : jb ∈ temp.filter (fun t => !(t == x.2.job_id)) := by
            rw [List.mem_filter]; exact ⟨hjb, by simp [hneq]⟩
          rw [List.isEmpty_iff.mp hemp] at h3
          cases h3
        simp [heq]
    · have hne' : temp.filter (fun t => !(t == x.2.job_id)) ≠ [] := by
        intro h0; rw [h0] at hemp; exact hemp rfl
      have hmem' : ∀ c ∈ xs, c ∈ chain := fun c hc => hmem c (List.mem_cons_of_mem _ hc)
      have hlive' : ∀ jb ∈ temp.filter (fun t => !(t == x.2.job_id)),
          jb ∈ xs.map (fun c => c.2.job_id) := by
        intro jb hjb
        rw [List.mem_filter] at hjb
        obtain ⟨hjb1, hjb2⟩ := hjb
        have h4 := hlive jb hjb1
        rw [List.map_cons] at h4
        rcases List.mem_cons.mp h4 with heq | h5
        · exfalso; rw [heq] at hjb2; simp at hjb2
        · exact h5
      obtain ⟨f1, c, f2, hfs, hscan, hcin, hcov⟩ :=
        ih (temp.filter (fun t => !(t == x.2.job_id))) hne' hmem' hlive'
      refine ⟨x :: f1, c, f2, by rw [List.cons_append, hfs], ?_, ?_, ?_⟩
      · simp only [List.map_cons]
        unfold cleanScan
        rw [hlkx]
        dsimp only
        rw [if_neg hemp, hscan]
        rfl
      · exact List.mem_of_mem_filter hcin
      · intro jb hjb
        by_cases heq : jb = x.2.job_id
        · rw [heq]
          exact List.mem_cons_self _ _
        · have h4 : jb ∈ (f1 ++ [c]).map (fun x => x.2.job_id) :=
            hcov jb (by rw [List.mem_filter]; exact ⟨hjb, by simp [heq]⟩)
          exact List.mem_cons_of_mem _ h4

/-- A decomposition of the filter: a split of the filtered list lifts to a
split of the list at the same element. -/
theorem filter_eq_append_cons {p : ChainNode → Bool} :
    ∀ {l X : List ChainNode} {c : ChainNode} {Y : List ChainNode},
      l.filter p = X ++ c :: Y →
      ∃ A B, l = A ++ c :: B ∧ A.filter p = X ∧ B.filter p = Y := by
  intro l
  induction l with
  | nil =>
    intro X c Y h
    rw [List.filter_nil] at h
    cases X with
    | nil => cases h
    | cons a as => cases h
  | cons e l ih =>
    intro X c Y h
    rw [List.filter_cons] at h
    by_cases hp : p e = true
    · rw [if_pos hp] at h
      cases X with
      | nil =>
        rw [List.nil_append] at h
        injection h with h1 h2
        subst h1
        exact ⟨[], l, rfl, by rw [List.filter_nil], h2⟩
      | cons a as =>
        rw [List.cons_append] at h
        injection h with h1 h2
        subst h1
        obtain ⟨A, B, hl, hA, hB⟩ := ih h2
        exact ⟨e :: A, B, by rw [hl]; rfl,
               by rw [List.filter_cons, if_pos hp, hA], hB⟩
    · rw [if_neg hp] at h
      obtain ⟨A, B, hl, hA, hB⟩ := ih h
      exact ⟨e :: A, B, by rw [hl]; rfl,
             by rw [List.filter_cons, if_neg hp]; exact hA, hB⟩

/-- Dropping over a wholly-satisfying front part stops exactly at `c`. -/
theorem dropWhile_cons_append {p : ChainNode → Bool} :
    ∀ {A : List ChainNode} {c : ChainNode} {B : List ChainNode},
      (∀ a ∈ A, p a = true) → p c = false →
      (A ++ c :: B).dropWhile p = c :: B := by
  intro A
  induction A with
  | nil =>
    intro c B _ hc
    rw [List.nil_append, List.dropWhile_cons]
    simp [hc]
  | cons a as ih =>
    intro c B hA hc
    rw [List.cons_append, List.dropWhile_cons]
    rw [hA a (List.mem_cons_self _ _)]
    simpa using ih (fun a' ha' => hA a' (List.mem_cons_of_mem _ ha')) hc

/-- C2: on a chain whose parent index is canonical (iterators to the
non-sterile entries in chain order), with distinct node identities and
writer ids, and every live parent a non-sterile writer of the chain,
`CleanChain(live)` succeeds, the surviving chain is exactly the suffix
starting at the oldest live writer's entry (no older entry remains), and the
parent index is trimmed to match — its first entry references that oldest
live writer's entry. -/
theorem claim_C2 :
    ∀ (live : List Nat) (st : Lineage),
      live ≠ [] →
      CanonicalIndex st →
      (st.chain.map (fun c => c.1)).Nodup →
      (st.chain.map (fun c => c.2.job_id)).Nodup →
      (∀ jb ∈ live,
        jb ∈ (st.chain.filter (fun c => !c.2.sterile)).map (fun c => c.2.job_id)) →
      ∃ st', CleanChain live st = some st' ∧
        st'.chain = st.chain.dropWhile (fun c => !(decide (c.2.job_id ∈ live))) ∧
        st'.parents_index =
          (st'.chain.filter (fun c => !c.2.sterile)).map (fun c => (some c.1 : ChainRef)) ∧
        (∀ c, st'.chain.head? = some c →
          st'.parents_index.head? = some (some c.1)) := by
  intro live st hlive hcanon hndid hndjb hsubset
  have hmemrev : ∀ c ∈ (st.chain.filter (fun c => !c.2.sterile)).reverse, c ∈ st.chain := by
    intro c hc
    rw [List.mem_reverse] at hc
    exact List.mem_of_mem_filter hc
  have hliverev : ∀ jb ∈ live,
      jb ∈ ((st.chain.filter (fun c => !c.2.sterile)).reverse).map (fun c => c.2.job_id) := by
    intro jb hjb
    rw [List.map_reverse, List.mem_reverse]
    exact hsubset jb hjb
  obtain ⟨f1, c, f2, hfs, hscan, hcin, hcov⟩ :=
    cleanScan_canon hndid ((st.chain.filter (fun c => !c.2.sterile)).reverse)
      live hlive hmemrev hliverev
  have hfilt : st.chain.filter (fun c => !c.2.sterile) = f2.reverse ++ c :: f1.reverse := by
    have h0 := congrArg List.reverse hfs
    rw [List.reverse_reverse] at h0
    rw [h0]
    simp [List.reverse_append]
  obtain ⟨A, B, hchain, hA, hB⟩ := filter_eq_append_cons hfilt
  have hscan2 : cleanScan st.chain live st.parents_index.reverse =
      some (some c.1, (f1 ++ [c]).map (fun x => (some x.1 : ChainRef))) := by
    unfold CanonicalIndex at hcanon
    rw [hcanon, ← List.map_reverse]
    exact hscan
  have hcfilt : c ∈ st.chain.filter (fun c => !c.2.sterile) := by
    rw [hfilt]
    exact List.mem_append_right _ (List.mem_cons_self _ _)
  have hcns : (!c.2.sterile) = true := (List.mem_filter.mp hcfilt).2
  have hndfilt : ((st.chain.filter (fun c => !c.2.sterile)).map
      (fun c => c.2.job_id)).Nodup :=
    List.Nodup.sublist ((List.filter_sublist _).map _) hndjb
  have hAnotlive : ∀ a ∈ A, (!(decide (a.2.job_id ∈ live))) = true := by
    intro a ha
    suffices h : a.2.job_id ∉ live by simp [h]
    intro hin
    have h5 := hcov _ hin
    have h6 := hsubset _ hin
    obtain ⟨d, hd, hdid⟩ := List.mem_map.mp h6
    have hachain : a ∈ st.chain := by
      rw [hchain]
      exact List.mem_append_left _ ha
    have haeq : a = d :=
      List.inj_on_of_nodup_map hndjb hachain (List.mem_of_mem_filter hd) hdid.symm
    have hans : (!a.2.sterile) = true := by
      rw [haeq]; exact (List.mem_filter.mp hd).2
    have hafilt : a ∈ f2.reverse := by
      rw [← hA]
      exact List.mem_filter.mpr ⟨ha, hans⟩
    have hndsplit := hndfilt
    rw [hfilt, List.map_append, List.nodup_append] at hndsplit
    apply hndsplit.2.2 (List.mem_map_of_mem (fun x => x.2.job_id) hafilt)
    rw [List.map_cons]
    rcases List.mem_map.mp h5 with ⟨u, hu, huid⟩
    rcases List.mem_append.mp hu with h7 | h8
    · exact List.mem_cons_of_mem _
        (huid ▸ List.mem_map_of_mem (fun x => x.2.job_id) (List.mem_reverse.mpr h7))
    · rw [List.mem_singleton] at h8
      subst h8
      rw [← huid]
      exact List.mem_cons_self _ _
  have hclean : CleanChain live st =
      some { chain := st.chain.dropWhile (fun cc => !(cc.1 == c.1)),
             parents_index := ((f1 ++ [c]).map (fun x => (some x.1 : ChainRef))).reverse,
             fresh := st.fresh } := by
    unfold CleanChain
    rw [if_neg (by simp [List.isEmpty_eq_false.mpr hlive])]
    rw [hscan2]
  have hidsA : ∀ a ∈ A, (!(a.1 == c.1)) = true := by
    intro a ha
    have hndid2 := hndid
    rw [hchain, List.map_append, List.map_cons, List.nodup_append] at hndid2
    have hne2 : a.1 ≠ c.1 := by
      intro heq
      exact hndid2.2.2 (List.mem_map_of_mem (fun x => x.1) ha)
        (heq ▸ List.mem_cons_self _ _)
    simp [hne2]
  have hchain1 : st.chain.dropWhile (fun cc => !(cc.1 == c.1)) = c :: B := by
    rw [hchain]
    exact dropWhile_cons_append hidsA (by simp)
  have hchain2 : st.chain.dropWhile (fun cc => !(decide (cc.2.job_id ∈ live))) = c :: B := by
    rw [hchain]
    exact dropWhile_cons_append hAnotlive (by simp [hcin])
  have hidx : ((f1 ++ [c]).map (fun x => (some x.1 : ChainRef))).reverse =
      ((c :: B).filter (fun cc => !cc.2.sterile)).map (fun x => (some x.1 : ChainRef)) := by
    rw [List.filter_cons, if_pos hcns, hB]
    rw [← List.map_reverse]
    congr 1
    simp [List.reverse_append]
  refine ⟨_, hclean, ?_, ?_, ?_⟩
  · dsimp only
    rw [hchain1, hchain2]
  · dsimp only
    rw [hchain1, hidx]
  · intro c' hc'
    dsimp only at hc' ⊢
    rw [hchain1] at hc'
    rw [List.head?_cons] at hc'
    obtain rfl := Option.some.inj hc'
    rw [hidx, List.filter_cons, if_pos hcns, List.map_cons, List.head?_cons]

/-- C2 witness: cleaning the four-entry chain with live writers 3 and 4
keeps exactly the suffix from job 3's entry and trims the index to match. -/
theorem claim_C2_witness :
    ∃ st', CleanChain [3, 4] exLineage4 = some st' ∧
      st'.chain =
        exLineage4.chain.dropWhile (fun c => !(decide (c.2.job_id ∈ [3, 4]))) ∧
      st'.parents_index =
        (st'.chain.filter (fun c => !c.2.sterile)).map (fun c => (some c.1 : ChainRef)) ∧
      (∀ c, st'.chain.head? = some c →
        st'.parents_index.head? = some (some c.1)) :=
  claim_C2 [3, 4] exLineage4 (by decide) (by decide) (by decide) (by decide) (by decide)

/-- C1 counterexample: the sorted chain `1 < 3 < 5` accepts a parent splice
at the already-present version 3 and produces the chain `1, 3, 3, 5`, whose
versions are not strictly increasing. -/
theorem claim_C1_counterexample :
    VersionsSorted exLineage3.chain ∧
    InsertParentLdlEntry 4 3 0 false exLineage3 =
      some { chain := [(0, ⟨1, 1, 0, false⟩), (1, ⟨2, 3, 0, false⟩),
                       (3, ⟨4, 3, 0, false⟩), (2, ⟨3, 5, 0, false⟩)],
             parents_index := [some 0, some 1, some 2, some 2], fresh := 4 } ∧
    ¬ VersionsSorted [(0, ⟨1, 1, 0, false⟩), (1, ⟨2, 3, 0, false⟩),
                      (3, ⟨4, 3, 0, false⟩), (2, ⟨3, 5, 0, false⟩)] := by
  refine ⟨by unfold VersionsSorted; decide, by decide, ?_⟩
  intro h
  simp only [VersionsSorted] at h
  exact absurd h (by decide)

end Nimbus
